import Mathlib

/-!
Verification of the FastFold batch-inference driver (`inference.py`) against its
natural-language specification.  The definitions below are a shallow embedding
of `main` and its helpers: strings of the program become `String`/`List Char`,
the filesystem becomes an association list from path to content, fallible
external calls become `Except` values, and the multi-process control loop
becomes a per-rank program of operations together with an interleaving
small-step semantics in which broadcast and barrier are group-wide rendezvous
events.
-/

namespace FastFoldInference

/-! ## Filesystem model

A flat store of `(path, contents)` pairs.  `fsWrite` shadows older entries
(Python's `open(path, "w")` overwrites); `fsRead` returns the newest entry;
`fsRemove` models `os.remove` by dropping every entry at the path. -/

abbrev FS := List (String × String)

def fsWrite (fs : FS) (p c : String) : FS := (p, c) :: fs

def fsRead : FS → String → Option String
  | [], _ => none
  | (q, c) :: rest, p => if q = p then some c else fsRead rest p

def fsRemove : FS → String → FS
  | [], _ => []
  | (q, c) :: rest, p => if q = p then fsRemove rest p else (q, c) :: fsRemove rest p

/-! ## Sequence Source Reader (inference.py lines 119-125)

The source reads the fasta file, strips each line, and forms
`tags, seqs = lines[::2], lines[1::2]` followed by `tags = [l[1:] for l in tags]`;
the loop then iterates over `zip(tags, seqs)`.  Lines are modelled as `List Char`
(already stripped, as in the source). -/

abbrev Line := List Char

mutual

def evenSlice : List α → List α
  | [] => []
  | x :: xs => x :: oddSlice xs

def oddSlice : List α → List α
  | [] => []
  | _ :: xs => evenSlice xs

end

/-- `tags, seqs = lines[::2], lines[1::2]; tags = [l[1:] for l in tags]`
(inference.py lines 122-123). -/
def gatherInput (lines : List Line) : List Line × List Line :=
  ((evenSlice lines).map (List.drop 1), oddSlice lines)

/-- The records the main loop iterates over: `zip(tags, seqs)`
(inference.py line 125). -/
def sequenceRecords (lines : List Line) : List (Line × Line) :=
  let p := gatherInput lines
  p.1.zip p.2

/-- Modelled from the spec: the spec's Sequence Source Reader, which "fails
with FormatError if line count is odd or a header line is malformed (does not
start with the header marker)".  Used only to compare the spec's words with the
source's `sequenceRecords`; no such validation exists in `inference.py`. -/
inductive FormatError where
  | oddLineCount
  | malformedHeader
  deriving DecidableEq

/-- Modelled from the spec: reader that validates line parity and the header
marker, returning the `(tag, sequence)` records on success. -/
def specReadRecords (marker : Char) : List Line → Except FormatError (List (Line × Line))
  | [] => .ok []
  | h :: s :: rest =>
    if h.head? = some marker then
      (specReadRecords marker rest).map (fun tl => (h.drop 1, s) :: tl)
    else
      .error .malformedHeader
  | [_] => .error .oddLineCount

/-- The i-th original header/sequence record pair of the file: consecutive
line pairs, in file order (spec-side description of "the i-th original record
pair", used to state reconstruction). -/
def specRecordPairs : List Line → List (Line × Line)
  | h :: s :: rest => (h, s) :: specRecordPairs rest
  | _ => []

/-! ## Temporary fasta file and the gate feature stage (lines 127-163) -/

/-- `fasta_path = os.path.join(args.output_dir, "tmp.fasta")` (line 128). -/
def tmpFastaPath (output_dir : String) : String := output_dir ++ "/" ++ "tmp.fasta"

/-- The path of the temporary file written for the sequence with tag `tag`:
line 128 sits inside `for tag, seq in zip(tags, seqs)` but the path computed
there does not mention the loop variables. -/
def perSequenceTmpFastaPath (output_dir : String) (tag : String) : String :=
  tmpFastaPath output_dir

/-- `fp.write(f">{tag}\n{seq}")` (line 130). -/
def fastaContent (tag seq : String) : String := ">" ++ tag ++ "\n" ++ seq

/-- Line 113-116: `alignment_dir` is `os.path.join(output_dir_base, "alignments")`
unless `--use_precomputed_alignments` was given. -/
def resolveAlignmentDir (use_precomputed_alignments : Option String)
    (output_dir_base : String) : String :=
  match use_precomputed_alignments with
  | none => output_dir_base ++ "/" ++ "alignments"
  | some p => p

/-- `local_alignment_dir = os.path.join(alignment_dir, tag)` (line 133). -/
def localAlignmentDir (alignment_dir tag : String) : String :=
  alignment_dir ++ "/" ++ tag

/-- Filesystem-relevant actions of the alignment portion of the gate loop body
(lines 134-150): when no precomputed directory was given, `os.makedirs` runs
only if the local directory is absent, and `alignment_runner.run` is then
invoked unconditionally; when a precomputed directory was given the whole
block is skipped. -/
inductive AlignAction where
  | makeDirs
  | runAlignment
  deriving DecidableEq

def alignmentStageActions (use_precomputed_alignments : Option String)
    (localDirExists : Bool) : List AlignAction :=
  match use_precomputed_alignments with
  | none => (if localDirExists then [] else [.makeDirs]) ++ [.runAlignment]
  | some _ => []

/-- Outcome of the alignment portion of the loop body: the fallible
`alignment_runner.run` call happens only when no precomputed directory was
given (lines 134-150). -/
def alignmentOutcome (use_precomputed_alignments : Option String)
    (runAlignResult : Except String Unit) : Except String Unit :=
  match use_precomputed_alignments with
  | none => runAlignResult
  | some _ => .ok ()

/-- The gate feature stage for one sequence (lines 127-163), with the two
fallible external calls (`alignment_runner.run`, `data_processor.process_fasta`)
represented by their outcomes.  The temporary fasta file is written first;
`os.remove(fasta_path)` (line 156) executes only after `process_fasta`
returned, and a raised exception propagates out of the stage. -/
def gateFeatureStage {FD : Type} (use_precomputed_alignments : Option String)
    (runAlignResult : Except String Unit) (processFastaResult : Except String FD)
    (output_dir tag seq : String) (fs : FS) : FS × Except String FD :=
  let fasta_path := tmpFastaPath output_dir
  let fs1 := fsWrite fs fasta_path (fastaContent tag seq)
  match alignmentOutcome use_precomputed_alignments runAlignResult with
  | .error e => (fs1, .error e)
  | .ok () =>
    match processFastaResult with
    | .error e => (fs1, .error e)
    | .ok fd => (fsRemove fs1 fasta_path, .ok fd)

/-! ## Seed resolution and the Feature-to-Batch call (lines 107-110, 158-161) -/

inductive PipelineMode where
  | predict
  | train
  deriving DecidableEq

/-- Lines 107-109: `random_seed = args.data_random_seed;
if random_seed is None: random_seed = random.randrange(sys.maxsize)`. -/
def resolveDataRandomSeed (data_random_seed : Option Nat) (randrange_value : Nat) : Nat :=
  match data_random_seed with
  | none => randrange_value
  | some s => s

/-- Lines 107-109 together with the transform invocation at lines 158-161:
`feature_processor.process_features(feature_dict, mode='predict')`.  The call
receives only the raw feature dict and the mode; the resolved seed is in scope
in `main` but is not among the call's arguments. -/
def gateTransformStage {FD B : Type} (process_features : FD → PipelineMode → B)
    (data_random_seed : Option Nat) (randrange_value : Nat) (feature_dict : FD) :
    Nat × B :=
  (resolveDataRandomSeed data_random_seed randrange_value,
   process_features feature_dict PipelineMode.predict)

/-! ## Database-path validation and the order of main's setup (lines 76-120) -/

/-- `use_small_bfd = args.preset == 'reduced_dbs'` (line 97). -/
def useSmallBfd (preset : String) : Bool := preset == "reduced_dbs"

/-- The asserts of lines 98-102: in reduced mode `bfd_database_path` must be
present; otherwise both `bfd_database_path` and `uniclust30_database_path`
must be present.  A violated `assert` raises `AssertionError`. -/
def dbPathAsserts (preset : String) (bfd uniclust30 : Option String) :
    Except String Unit :=
  if useSmallBfd preset then
    if bfd.isSome then .ok () else .error "AssertionError"
  else
    if bfd.isSome then
      if uniclust30.isSome then .ok () else .error "AssertionError"
    else .error "AssertionError"

/-- The steps of `main` before the per-sequence loop, in source order
(lines 78-120). -/
inductive SetupStep where
  | initDap
  | buildConfig
  | buildModel
  | importWeights
  | injectFastnnStep
  | modelEvalMode
  | modelToCuda
  | buildTemplateFeaturizer
  | validateDbPaths
  | buildDataPipeline
  | resolveSeedStep
  | buildFeaturePipeline
  | ensureOutputDirStep
  | resolveAlignmentDirStep
  | readInputStep
  deriving DecidableEq

def mainSetupOrder : List SetupStep :=
  [.initDap, .buildConfig, .buildModel, .importWeights, .injectFastnnStep,
   .modelEvalMode, .modelToCuda, .buildTemplateFeaturizer, .validateDbPaths,
   .buildDataPipeline, .resolveSeedStep, .buildFeaturePipeline,
   .ensureOutputDirStep, .resolveAlignmentDirStep, .readInputStep]

/-! ## Result serialization and refinement (lines 180-214) -/

def unrelaxedOutputPath (output_dir tag model_name : String) : String :=
  output_dir ++ "/" ++ (tag ++ "_" ++ model_name ++ "_unrelaxed.pdb")

def relaxedOutputPath (output_dir tag model_name : String) : String :=
  output_dir ++ "/" ++ (tag ++ "_" ++ model_name ++ "_relaxed.pdb")

/-- The gate's persistence stage for one sequence (lines 194-214): the
unrelaxed pdb text is written, then `amber_relaxer.process` runs (its failure
is not caught and propagates), and only on success is the relaxed pdb written.
The returned pair is the filesystem as left on disk together with the
propagated outcome. -/
def gateOutputStage {Protein E : Type} (to_pdb : Protein → String)
    (relaxProcess : Protein → Except E (String × Unit × Unit))
    (output_dir tag model_name : String) (prot : Protein) (fs : FS) :
    FS × Except E Unit :=
  let fs1 := fsWrite fs (unrelaxedOutputPath output_dir tag model_name) (to_pdb prot)
  match relaxProcess prot with
  | .error e => (fs1, .error e)
  | .ok (relaxed_pdb_str, _, _) =>
    (fsWrite fs1 (relaxedOutputPath output_dir tag model_name) relaxed_pdb_str, .ok ())

/-! ## The multi-process control loop (lines 111-216)

Each rank executes the same straight-line program per sequence; `act` steps are
process-local, `sync` steps (broadcast / barrier) are group-wide rendezvous.
The per-rank programs are read off the source: the feature work and the output
work are guarded by `torch.distributed.get_rank() == 0`; the initial
output-directory creation (lines 111-112) and the fasta read (lines 119-120)
are unguarded and therefore appear in every rank's program. -/

inductive LEvent where
  | ensureOutputDir
  | readInput
  | writeTmpFasta (n : Nat)
  | makeAlignDir (n : Nat)
  | runAlignment (n : Nat)
  | processFasta (n : Nat)
  | removeTmpFasta (n : Nat)
  | processFeatures (n : Nat)
  | forward (n : Nat)
  | writeUnrelaxed (n : Nat)
  | relaxCall (n : Nat)
  | writeRelaxed (n : Nat)
  deriving DecidableEq

inductive SEvent where
  | bcast (n : Nat)
  | bar1 (n : Nat)
  | bar2 (n : Nat)
  deriving DecidableEq

inductive Op where
  | act (e : LEvent)
  | sync (s : SEvent)
  deriving DecidableEq

/-- Gate-only feature work for sequence `n` (lines 128-163), with `pre` the
`--use_precomputed_alignments` option and `dex n` whether the local alignment
directory for sequence `n` already exists. -/
def gateFeatureOps (pre : Option String) (dex : Nat → Bool) (n : Nat) : List Op :=
  [.act (.writeTmpFasta n)] ++
  (match pre with
   | none => (if dex n then [] else [.act (.makeAlignDir n)]) ++ [.act (.runAlignment n)]
   | some _ => []) ++
  [.act (.processFasta n), .act (.removeTmpFasta n), .act (.processFeatures n)]

/-- Gate-only result handling for sequence `n` (lines 180-214). -/
def gateOutputOps (n : Nat) : List Op :=
  [.act (.writeUnrelaxed n), .act (.relaxCall n), .act (.writeRelaxed n)]

/-- One iteration of the loop (lines 125-216) as executed by rank `r`. -/
def iterOps (r : Nat) (pre : Option String) (dex : Nat → Bool) (n : Nat) : List Op :=
  (if r = 0 then gateFeatureOps pre dex n else []) ++
  [.sync (.bcast n), .act (.forward n), .sync (.bar1 n)] ++
  (if r = 0 then gateOutputOps n else []) ++
  [.sync (.bar2 n)]

/-- The loop over the first `k` sequences. -/
def loopOps (r : Nat) (pre : Option String) (dex : Nat → Bool) : Nat → List Op
  | 0 => []
  | k + 1 => loopOps r pre dex k ++ iterOps r pre dex k

/-- The whole per-rank program: output-directory creation (lines 111-112,
performed when the directory is absent, `odex` records whether it already
existed), the fasta read (lines 119-120), then the loop. -/
def prog (r : Nat) (pre : Option String) (dex : Nat → Bool) (odex : Bool) (k : Nat) :
    List Op :=
  (if odex then [] else [.act .ensureOutputDir]) ++ [.act .readInput] ++
    loopOps r pre dex k

/-- Trace events: process-local actions are tagged with the acting rank,
rendezvous events are global. -/
inductive TEvent where
  | act (p : Nat) (e : LEvent)
  | sync (s : SEvent)
  deriving DecidableEq

structure GState (N : Nat) where
  procs : Fin N → List Op
  trace : List TEvent

/-- Interleaving semantics: a process may take its next local action at any
time; a rendezvous happens only when it is the next operation of every
process, and advances all of them at once (broadcast and barrier both block
until the whole group arrives). -/
inductive Step (N : Nat) : GState N → GState N → Prop where
  | act (st : GState N) (p : Fin N) (e : LEvent) (rest : List Op)
      (h : st.procs p = .act e :: rest) :
      Step N st ⟨Function.update st.procs p rest, st.trace ++ [.act p.val e]⟩
  | sync (st : GState N) (s : SEvent) (rest : Fin N → List Op)
      (h : ∀ p, st.procs p = .sync s :: rest p) :
      Step N st ⟨rest, st.trace ++ [.sync s]⟩

def initState (N : Nat) (pre : Option String) (dex : Nat → Bool) (odex : Bool)
    (k : Nat) : GState N :=
  ⟨fun p => prog p.val pre dex odex k, []⟩

def Reachable (N : Nat) (pre : Option String) (dex : Nat → Bool) (odex : Bool)
    (k : Nat) (st : GState N) : Prop :=
  Relation.ReflTransGen (Step N) (initState N pre dex odex k) st

/-- The final state of a complete single-process run over one sequence with a
precomputed alignment directory: every operation has executed, in program
order.  Used to exercise the ordering theorem on a maximal concrete trace. -/
def fullRunState : GState 1 :=
  ⟨fun _ => [],
    [.act 0 .readInput, .act 0 (.writeTmpFasta 0), .act 0 (.processFasta 0),
     .act 0 (.removeTmpFasta 0), .act 0 (.processFeatures 0), .sync (.bcast 0),
     .act 0 (.forward 0), .sync (.bar1 0), .act 0 (.writeUnrelaxed 0),
     .act 0 (.relaxCall 0), .act 0 (.writeRelaxed 0), .sync (.bar2 0)]⟩

/-- The rendezvous events of the run, in their unique global order. -/
def canonicalSyncs : Nat → List SEvent
  | 0 => []
  | k + 1 => canonicalSyncs k ++ [.bcast k, .bar1 k, .bar2 k]

def syncsOf (l : List Op) : List SEvent :=
  l.filterMap (fun op => match op with | .sync s => some s | .act _ => none)

def traceSyncs (t : List TEvent) : List SEvent :=
  t.filterMap (fun ev => match ev with | .sync s => some s | .act _ _ => none)

/-- Position of a rendezvous event in the canonical order. -/
def sIdx : SEvent → Nat
  | .bcast n => 3 * n
  | .bar1 n => 3 * n + 1
  | .bar2 n => 3 * n + 2

/-- Position of an operation in the per-rank program order; every rank's
program is strictly increasing under this code. -/
def opCode : Op → Nat
  | .act .ensureOutputDir => 0
  | .act .readInput => 1
  | .act (.writeTmpFasta n) => 13 * n + 2
  | .act (.makeAlignDir n) => 13 * n + 3
  | .act (.runAlignment n) => 13 * n + 4
  | .act (.processFasta n) => 13 * n + 5
  | .act (.removeTmpFasta n) => 13 * n + 6
  | .act (.processFeatures n) => 13 * n + 7
  | .sync (.bcast n) => 13 * n + 8
  | .act (.forward n) => 13 * n + 9
  | .sync (.bar1 n) => 13 * n + 10
  | .act (.writeUnrelaxed n) => 13 * n + 11
  | .act (.relaxCall n) => 13 * n + 12
  | .act (.writeRelaxed n) => 13 * n + 13
  | .sync (.bar2 n) => 13 * n + 14

/-- The global invariant of the interleaving semantics: some count `m` of
rendezvous events has happened; the trace's rendezvous events are exactly the
first `m` canonical ones; every process has consumed a prefix of its program
whose rendezvous events are exactly those `m`, and the local actions logged in
the trace for a process are exactly the ones in its consumed prefix. -/
def Inv (N : Nat) (pre : Option String) (dex : Nat → Bool) (odex : Bool) (k : Nat)
    (st : GState N) : Prop :=
  ∃ m, traceSyncs st.trace = (canonicalSyncs k).take m ∧
    ∀ p : Fin N, ∃ c,
      prog p.val pre dex odex k = c ++ st.procs p ∧
      syncsOf c = (canonicalSyncs k).take m ∧
      syncsOf (st.procs p) = (canonicalSyncs k).drop m ∧
      (∀ e, Op.act e ∈ c ↔ TEvent.act p.val e ∈ st.trace)

/-! # Helper lemmas -/

theorem fsRead_fsWrite_self (fs : FS) (p c : String) :
    fsRead (fsWrite fs p c) p = some c := by
  simp [fsWrite, fsRead]

theorem fsRead_fsWrite_ne (fs : FS) (p q c : String) (h : p ≠ q) :
    fsRead (fsWrite fs p c) q = fsRead fs q := by
  simp [fsWrite, fsRead, h]

theorem fsRead_fsRemove_self (fs : FS) (p : String) :
    fsRead (fsRemove fs p) p = none := by
  induction fs with
  | nil => rfl
  | cons hd tl ih =>
    obtain ⟨q, c⟩ := hd
    by_cases h : q = p <;> simp [fsRemove, fsRead, h, ih]

theorem unrelaxed_ne_relaxed (d t m : String) :
    unrelaxedOutputPath d t m ≠ relaxedOutputPath d t m := by
  intro h
  have hl := congrArg String.length h
  have h1 : String.length "/" = 1 := rfl
  have h2 : String.length "_" = 1 := rfl
  have h3 : String.length "_unrelaxed.pdb" = 14 := rfl
  have h4 : String.length "_relaxed.pdb" = 12 := rfl
  simp [unrelaxedOutputPath, relaxedOutputPath, String.length_append,
    h1, h2, h3, h4] at hl

/-- Induction on a list two elements at a time. -/
theorem two_step_induction {α : Type _} {P : List α → Prop} (h0 : P [])
    (h1 : ∀ a, P [a]) (h2 : ∀ a b l, P l → P (a :: b :: l)) : ∀ l, P l
  | [] => h0
  | [a] => h1 a
  | a :: b :: l => h2 a b l (two_step_induction h0 h1 h2 l)

theorem evenSlice_cons_cons (a b : α) (rest : List α) :
    evenSlice (a :: b :: rest) = a :: evenSlice rest := by
  simp [evenSlice, oddSlice]

theorem oddSlice_cons_cons (a b : α) (rest : List α) :
    oddSlice (a :: b :: rest) = b :: oddSlice rest := by
  simp [evenSlice, oddSlice]

theorem sequenceRecords_cons_cons (a b : Line) (rest : List Line) :
    sequenceRecords (a :: b :: rest) = (a.drop 1, b) :: sequenceRecords rest := by
  simp [sequenceRecords, gatherInput, evenSlice, oddSlice]

theorem sequenceRecords_length (lines : List Line) :
    (sequenceRecords lines).length = lines.length / 2 := by
  induction lines using two_step_induction with
  | h0 => rfl
  | h1 a => simp [sequenceRecords, gatherInput, evenSlice, oddSlice]
  | h2 a b rest ih =>
    rw [sequenceRecords_cons_cons]
    simp only [List.length_cons, ih]
    omega

/-! # Claim theorems -/

/-- C10: the temporary single-record file is written at the fixed path
`<output_dir>/tmp.fasta`; the path does not depend on the sequence tag, so
successive sequences of a run overwrite the same file, and two runs sharing an
output directory compute the same temporary path. -/
theorem tmp_path_tag_independent :
    (∀ d t₁ t₂ : String, perSequenceTmpFastaPath d t₁ = perSequenceTmpFastaPath d t₂) ∧
    perSequenceTmpFastaPath "outdir" "seqA" = "outdir/tmp.fasta" ∧
    (∀ (fs : FS) (d t₁ t₂ c₁ c₂ : String),
      fsRead (fsWrite (fsWrite fs (perSequenceTmpFastaPath d t₁) c₁)
          (perSequenceTmpFastaPath d t₂) c₂) (perSequenceTmpFastaPath d t₁) = some c₂) := by
  refine ⟨fun d t₁ t₂ => rfl, by decide, fun fs d t₁ t₂ c₁ c₂ => ?_⟩
  exact fsRead_fsWrite_self _ _ _

/-- C5 counterexample: two runs that resolve different process-chosen seeds
make the very same transform invocation and obtain the identical batch — the
resolved seed is not among the transform call's arguments (lines 158-161), so
it is not "the seed governing the transform's randomized choices". -/
theorem seed_not_passed_to_transform :
    (gateTransformStage (fun (fd : List Nat) (_ : PipelineMode) => fd) none 0 [1, 2]).1 ≠
      (gateTransformStage (fun (fd : List Nat) (_ : PipelineMode) => fd) none 999 [1, 2]).1 ∧
    (gateTransformStage (fun (fd : List Nat) (_ : PipelineMode) => fd) none 0 [1, 2]).2 =
      (gateTransformStage (fun (fd : List Nat) (_ : PipelineMode) => fd) none 999 [1, 2]).2 := by
  decide

/-- C5 amended: a seed is resolved once per run (the CLI value when given,
otherwise the process-chosen `random.randrange` value), but it is never passed
to the Feature-to-Batch call, which receives only the raw feature map and
`mode='predict'`; the batch is therefore identical across runs whatever seed
was resolved, for every possible transform. -/
theorem transform_independent_of_seed {FD B : Type}
    (process_features : FD → PipelineMode → B) (s₁ s₂ : Option Nat)
    (d₁ d₂ : Nat) (fd : FD) :
    (gateTransformStage process_features s₁ d₁ fd).2 =
      (gateTransformStage process_features s₂ d₂ fd).2 ∧
    (gateTransformStage process_features none d₁ fd).1 = d₁ ∧
    (∀ s : Nat, (gateTransformStage process_features (some s) d₁ fd).1 = s) ∧
    (gateTransformStage process_features s₁ d₁ fd).2 =
      process_features fd PipelineMode.predict :=
  ⟨rfl, rfl, fun _ => rfl, rfl⟩

/-- C2 counterexample: the database-path asserts (lines 97-102) execute only
after the model has been built, its weights imported from disk and the model
moved to the GPU (lines 80-87) — expensive model work precedes the
validation. -/
theorem dbValidation_after_weight_loading :
    mainSetupOrder.indexOf SetupStep.importWeights <
      mainSetupOrder.indexOf SetupStep.validateDbPaths ∧
    mainSetupOrder.indexOf SetupStep.modelToCuda <
      mainSetupOrder.indexOf SetupStep.validateDbPaths := by
  decide

/-- C2 amended: in `reduced_dbs` mode the single (small) bfd database path is
mandatory, in `full_dbs` mode both the bfd and uniclust30 paths are mandatory,
and a violation raises a fatal `AssertionError`; the validation happens before
the data pipeline is built and before the input is read (hence before any
alignment, feature or forward work), though after model construction and
weight loading. -/
theorem dbValidation_semantics_and_position :
    (∀ u : Option String, dbPathAsserts "reduced_dbs" none u = .error "AssertionError") ∧
    (∀ (p : String) (u : Option String),
      dbPathAsserts "reduced_dbs" (some p) u = .ok ()) ∧
    (∀ u : Option String, dbPathAsserts "full_dbs" none u = .error "AssertionError") ∧
    (∀ p : String, dbPathAsserts "full_dbs" (some p) none = .error "AssertionError") ∧
    (∀ p q : String, dbPathAsserts "full_dbs" (some p) (some q) = .ok ()) ∧
    mainSetupOrder.indexOf SetupStep.validateDbPaths <
      mainSetupOrder.indexOf SetupStep.buildDataPipeline ∧
    mainSetupOrder.indexOf SetupStep.validateDbPaths <
      mainSetupOrder.indexOf SetupStep.readInputStep := by
  refine ⟨fun u => rfl, fun p u => rfl, fun u => rfl, fun p => rfl,
    fun p q => rfl, by decide, by decide⟩

/-- C8: the unrelaxed structure is written to
`<output_dir>/<tag>_<model_name>_unrelaxed.pdb` before refinement runs; a
refinement failure propagates uncaught, leaving the unrelaxed artifact on disk
and the relaxed path untouched; on success the relaxed text is written to
`<output_dir>/<tag>_<model_name>_relaxed.pdb`. -/
theorem unrelaxed_durable_relax_fatal {Protein E : Type} (to_pdb : Protein → String)
    (relaxProcess : Protein → Except E (String × Unit × Unit))
    (output_dir tag model_name : String) (prot : Protein) (fs : FS) :
    fsRead (gateOutputStage to_pdb relaxProcess output_dir tag model_name prot fs).1
        (unrelaxedOutputPath output_dir tag model_name) = some (to_pdb prot) ∧
    (∀ e, relaxProcess prot = .error e →
      (gateOutputStage to_pdb relaxProcess output_dir tag model_name prot fs).2 =
          .error e ∧
      fsRead (gateOutputStage to_pdb relaxProcess output_dir tag model_name prot fs).1
          (relaxedOutputPath output_dir tag model_name) =
        fsRead fs (relaxedOutputPath output_dir tag model_name)) ∧
    (∀ s u v, relaxProcess prot = .ok (s, u, v) →
      (gateOutputStage to_pdb relaxProcess output_dir tag model_name prot fs).2 =
          .ok () ∧
      fsRead (gateOutputStage to_pdb relaxProcess output_dir tag model_name prot fs).1
          (relaxedOutputPath output_dir tag model_name) = some s) := by
  rcases hrel : relaxProcess prot with e | ⟨s, u, v⟩
  · refine ⟨?_, fun e₀ he₀ => ?_, fun s₀ u₀ v₀ hs₀ => ?_⟩
    · simp [gateOutputStage, hrel, fsRead_fsWrite_self]
    · injection he₀ with he₁
      subst he₁
      constructor
      · simp [gateOutputStage, hrel]
      · simp only [gateOutputStage, hrel]
        exact fsRead_fsWrite_ne _ _ _ _ (unrelaxed_ne_relaxed _ _ _)
    · simp at hs₀
  · refine ⟨?_, fun e₀ he₀ => ?_, fun s₀ u₀ v₀ hs₀ => ?_⟩
    · simp only [gateOutputStage, hrel]
      rw [fsRead_fsWrite_ne _ _ _ _ (fun h => unrelaxed_ne_relaxed _ _ _ h.symm)]
      exact fsRead_fsWrite_self _ _ _
    · simp at he₀
    · injection hs₀ with hs₁
      injection hs₁ with hs₂ hs₃
      subst hs₂
      exact ⟨by simp [gateOutputStage, hrel], by simp [gateOutputStage, hrel,
        fsRead_fsWrite_self]⟩

/-- C8 witness: a concrete refinement failure after the unrelaxed write; the
unrelaxed file is on disk, no relaxed file exists, and the error propagated. -/
theorem unrelaxed_durable_relax_fatal_app :
    fsRead (gateOutputStage (fun _ : Unit => "PDBTEXT")
        (fun _ => Except.error "force-field diverged") "out" "seq1" "model_1" () []).1
      (unrelaxedOutputPath "out" "seq1" "model_1") = some "PDBTEXT" ∧
    (gateOutputStage (fun _ : Unit => "PDBTEXT")
        (fun _ => Except.error "force-field diverged") "out" "seq1" "model_1" () []).2 =
      Except.error "force-field diverged" ∧
    fsRead (gateOutputStage (fun _ : Unit => "PDBTEXT")
        (fun _ => Except.error "force-field diverged") "out" "seq1" "model_1" () []).1
      (relaxedOutputPath "out" "seq1" "model_1") = none := by
  obtain ⟨h1, h2, -⟩ := unrelaxed_durable_relax_fatal (fun _ : Unit => "PDBTEXT")
    (fun _ => Except.error "force-field diverged") "out" "seq1" "model_1" () []
  obtain ⟨h3, h4⟩ := h2 "force-field diverged" rfl
  exact ⟨h1, h3, by rw [h4]; rfl⟩

/-- C1 counterexample: when the alignment run raises after the temporary
fasta file was created, the stage propagates the error and the temporary file
is still on disk — `os.remove` (line 156) is not reached. -/
theorem tmpFasta_not_removed_on_failure :
    fsRead (gateFeatureStage none (.error "hhblits failed")
        (Except.ok () : Except String Unit) "out" "seq1" "MKV" []).1
      (tmpFastaPath "out") = some (fastaContent "seq1" "MKV") ∧
    (gateFeatureStage none (.error "hhblits failed")
        (Except.ok () : Except String Unit) "out" "seq1" "MKV" []).2 =
      .error "hhblits failed" := by
  constructor <;> rfl

/-- C1 amended: the temporary fasta file is removed only on the success path;
when the alignment run or the feature-extraction call fails, the error
propagates and the file written at `tmpFastaPath output_dir` remains on
disk. -/
theorem tmpFasta_cleanup_only_on_success {FD : Type} (pre : Option String)
    (ra : Except String Unit) (pf : Except String FD)
    (output_dir tag seq : String) (fs : FS) :
    (∀ e, alignmentOutcome pre ra = .error e →
      (gateFeatureStage pre ra pf output_dir tag seq fs).2 = .error e ∧
      fsRead (gateFeatureStage pre ra pf output_dir tag seq fs).1
          (tmpFastaPath output_dir) = some (fastaContent tag seq)) ∧
    (∀ e, alignmentOutcome pre ra = .ok () → pf = .error e →
      (gateFeatureStage pre ra pf output_dir tag seq fs).2 = .error e ∧
      fsRead (gateFeatureStage pre ra pf output_dir tag seq fs).1
          (tmpFastaPath output_dir) = some (fastaContent tag seq)) ∧
    (∀ fd, alignmentOutcome pre ra = .ok () → pf = .ok fd →
      (gateFeatureStage pre ra pf output_dir tag seq fs).2 = .ok fd ∧
      fsRead (gateFeatureStage pre ra pf output_dir tag seq fs).1
          (tmpFastaPath output_dir) = none) := by
  refine ⟨fun e he => ?_, fun e ha hp => ?_, fun fd ha hp => ?_⟩
  · simp [gateFeatureStage, he, fsRead_fsWrite_self]
  · simp [gateFeatureStage, ha, hp, fsRead_fsWrite_self]
  · simp [gateFeatureStage, ha, hp, fsRead_fsRemove_self]

/-- C1 witness: concrete run of the amended theorem on a feature-extraction
failure with a precomputed alignment directory. -/
theorem tmpFasta_cleanup_only_on_success_app :
    ((gateFeatureStage (some "aligndir") (.ok ())
        (Except.error "bad msa" : Except String Unit) "od" "t" "ACDE" []).2 =
        .error "bad msa" ∧
      fsRead (gateFeatureStage (some "aligndir") (.ok ())
          (Except.error "bad msa" : Except String Unit) "od" "t" "ACDE" []).1
        (tmpFastaPath "od") = some (fastaContent "t" "ACDE")) := by
  obtain ⟨-, h2, -⟩ := tmpFasta_cleanup_only_on_success (some "aligndir")
    (.ok ()) (Except.error "bad msa" : Except String Unit) "od" "t" "ACDE" []
  exact h2 "bad msa" rfl rfl

/-- C3 counterexample: the source reader validates nothing.  On a
single-line file (odd line count, header not starting with the marker) it
silently returns no records, and on a malformed header it strips the first
character anyway — while the spec's reader signals `FormatError` in both
situations. -/
theorem reader_never_fails :
    sequenceRecords [['A', 'A']] = [] ∧
    specReadRecords '>' [['A', 'A']] = .error .oddLineCount ∧
    sequenceRecords [['A'], ['B']] = [([], ['B'])] ∧
    specReadRecords '>' [['A'], ['B']] = .error .malformedHeader :=
  ⟨rfl, rfl, rfl, rfl⟩

/-- C3 amended: the reader is total and performs no validation: every input
yields `⌊lines.length / 2⌋` records (an odd trailing header is silently
dropped), and the first character of each header line is stripped whether or
not it is the header marker. -/
theorem reader_total_no_validation :
    (∀ lines : List Line, (sequenceRecords lines).length = lines.length / 2) ∧
    (∀ (c : Char) (h s : Line) (rest : List Line),
      sequenceRecords ((c :: h) :: s :: rest) = (h, s) :: sequenceRecords rest) := by
  refine ⟨sequenceRecords_length, fun c h s rest => ?_⟩
  rw [sequenceRecords_cons_cons]
  rfl

/-- C4 counterexample: on a valid one-record file the concatenation
`tags[0] ++ seqs[0]` does not reconstruct the original record pair — the
header marker was stripped from the tag (line 123). -/
theorem record_concat_missing_marker :
    (sequenceRecords [['>', 'a'], ['B']]).map (fun r => r.1 ++ r.2) ≠
      [['>', 'a'] ++ ['B']] ∧
    (sequenceRecords [['>', 'a'], ['B']]).map (fun r => r.1 ++ r.2) = [['a', 'B']] ∧
    ([['>', 'a'], ['B']] : List Line).length % 2 = 0 ∧
    (∀ l ∈ evenSlice ([['>', 'a'], ['B']] : List Line), l.head? = some '>') := by
  decide

/-- C4 amended: for every valid input (even line count, each header starting
with the marker) the reader yields `lines.length / 2` records in file order,
and prepending the stripped marker to `tags[i] ++ seqs[i]` reconstructs the
concatenation of the i-th original header/sequence line pair. -/
theorem record_reconstruction_with_marker : ∀ lines : List Line,
    lines.length % 2 = 0 →
    (∀ l ∈ evenSlice lines, l.head? = some '>') →
    (sequenceRecords lines).length = lines.length / 2 ∧
    List.Forall₂ (fun rec orig => '>' :: (rec.1 ++ rec.2) = orig.1 ++ orig.2)
      (sequenceRecords lines) (specRecordPairs lines) := by
  intro lines
  induction lines using two_step_induction with
  | h0 => exact fun _ _ => ⟨rfl, List.Forall₂.nil⟩
  | h1 a =>
    intro heven _
    simp only [List.length_singleton] at heven
    omega
  | h2 a b rest ih =>
    intro heven hhdr
    have hhead : a.head? = some '>' := hhdr a (by rw [evenSlice_cons_cons]; simp)
    have hrest : ∀ l ∈ evenSlice rest, l.head? = some '>' := fun l hl =>
      hhdr l (by rw [evenSlice_cons_cons]; exact List.mem_cons_of_mem _ hl)
    have he2 : rest.length % 2 = 0 := by
      simp only [List.length_cons] at heven
      omega
    obtain ⟨ihl, ihf⟩ := ih he2 hrest
    obtain ⟨c, a', rfl⟩ : ∃ c a', a = c :: a' := by
      cases a with
      | nil => simp at hhead
      | cons c a' => exact ⟨c, a', rfl⟩
    have hc : c = '>' := by simpa using hhead
    subst hc
    constructor
    · rw [sequenceRecords_cons_cons]
      simp only [List.length_cons, ihl]
      omega
    · rw [sequenceRecords_cons_cons]
      exact List.Forall₂.cons (by simp) ihf

/-- C4 witness: the amended reconstruction on a concrete valid two-line
file. -/
theorem record_reconstruction_with_marker_app :
    ([['>', 's'], ['A', 'C']] : List Line).length % 2 = 0 ∧
    (∀ l ∈ evenSlice ([['>', 's'], ['A', 'C']] : List Line), l.head? = some '>') ∧
    ((sequenceRecords [['>', 's'], ['A', 'C']]).length =
        ([['>', 's'], ['A', 'C']] : List Line).length / 2 ∧
      List.Forall₂ (fun rec orig => '>' :: (rec.1 ++ rec.2) = orig.1 ++ orig.2)
        (sequenceRecords [['>', 's'], ['A', 'C']])
        (specRecordPairs [['>', 's'], ['A', 'C']])) :=
  ⟨by decide, by decide,
    record_reconstruction_with_marker [['>', 's'], ['A', 'C']] (by decide) (by decide)⟩

/-! # Concurrency machinery: rendezvous order and program order -/

theorem getElem?_of_drop_eq_cons {α : Type _} :
    ∀ {l : List α} {m : Nat} {a : α} {t : List α},
      l.drop m = a :: t → l[m]? = some a
  | [], m, a, t, h => by simp at h
  | x :: xs, 0, a, t, h => by
    simp at h
    simp [h.1]
  | x :: xs, m + 1, a, t, h => by
    simp only [List.drop_succ_cons] at h
    simpa using getElem?_of_drop_eq_cons h

theorem drop_succ_of_drop_eq_cons {α : Type _} :
    ∀ {l : List α} {m : Nat} {a : α} {t : List α},
      l.drop m = a :: t → l.drop (m + 1) = t
  | [], m, a, t, h => by simp at h
  | x :: xs, 0, a, t, h => by
    simp at h
    simp [h.2]
  | x :: xs, m + 1, a, t, h => by
    simp only [List.drop_succ_cons] at h
    simpa using drop_succ_of_drop_eq_cons h

theorem syncsOf_append (a b : List Op) : syncsOf (a ++ b) = syncsOf a ++ syncsOf b := by
  simp [syncsOf, List.filterMap_append]

theorem syncsOf_gateFeatureOps (pre : Option String) (dex : Nat → Bool) (n : Nat) :
    syncsOf (gateFeatureOps pre dex n) = [] := by
  rcases pre with _ | p
  · by_cases hd : dex n = true <;> simp [gateFeatureOps, syncsOf, hd]
  · simp [gateFeatureOps, syncsOf]

theorem syncsOf_iterOps (r : Nat) (pre : Option String) (dex : Nat → Bool) (n : Nat) :
    syncsOf (iterOps r pre dex n) = [.bcast n, .bar1 n, .bar2 n] := by
  by_cases hr : r = 0
  · rw [iterOps, if_pos hr, if_pos hr, syncsOf_append, syncsOf_append,
      syncsOf_append, syncsOf_gateFeatureOps]
    rfl
  · rw [iterOps, if_neg hr, if_neg hr]
    rfl

theorem syncsOf_loopOps (r : Nat) (pre : Option String) (dex : Nat → Bool) :
    ∀ k, syncsOf (loopOps r pre dex k) = canonicalSyncs k
  | 0 => rfl
  | k + 1 => by
    simp only [loopOps, canonicalSyncs, syncsOf_append,
      syncsOf_loopOps r pre dex k, syncsOf_iterOps]

theorem syncsOf_prog (r : Nat) (pre : Option String) (dex : Nat → Bool) (odex : Bool)
    (k : Nat) : syncsOf (prog r pre dex odex k) = canonicalSyncs k := by
  by_cases ho : odex
  · rw [prog, if_pos ho, List.nil_append, syncsOf_append, syncsOf_loopOps]
    rfl
  · rw [prog, if_neg ho, syncsOf_append, syncsOf_loopOps]
    rfl

theorem map_sIdx_canonicalSyncs : ∀ k, (canonicalSyncs k).map sIdx = List.range (3 * k)
  | 0 => rfl
  | k + 1 => by
    have h3 : 3 * (k + 1) = 3 * k + 1 + 1 + 1 := by ring
    rw [canonicalSyncs, List.map_append, map_sIdx_canonicalSyncs k, h3,
      List.range_succ, List.range_succ, List.range_succ]
    simp [sIdx, List.append_assoc]

theorem bcast_mem_canonicalSyncs : ∀ k n, SEvent.bcast n ∈ canonicalSyncs k ↔ n < k
  | 0, n => by simp [canonicalSyncs]
  | k + 1, n => by
    simp only [canonicalSyncs, List.mem_append, bcast_mem_canonicalSyncs k n,
      List.mem_cons, List.not_mem_nil]
    constructor
    · rintro (h | h | h | h | h)
      · omega
      · injection h with h2
        omega
      · cases h
      · cases h
      · cases h
    · intro h
      by_cases hk : n < k
      · exact Or.inl hk
      · have hnk : n = k := by omega
        subst hnk
        exact Or.inr (Or.inl rfl)

theorem bar1_mem_canonicalSyncs : ∀ k n, SEvent.bar1 n ∈ canonicalSyncs k ↔ n < k
  | 0, n => by simp [canonicalSyncs]
  | k + 1, n => by
    simp only [canonicalSyncs, List.mem_append, bar1_mem_canonicalSyncs k n,
      List.mem_cons, List.not_mem_nil]
    constructor
    · rintro (h | h | h | h | h)
      · omega
      · cases h
      · injection h with h2
        omega
      · cases h
      · cases h
    · intro h
      by_cases hk : n < k
      · exact Or.inl hk
      · have hnk : n = k := by omega
        subst hnk
        exact Or.inr (Or.inr (Or.inl rfl))

theorem bar2_mem_canonicalSyncs : ∀ k n, SEvent.bar2 n ∈ canonicalSyncs k ↔ n < k
  | 0, n => by simp [canonicalSyncs]
  | k + 1, n => by
    simp only [canonicalSyncs, List.mem_append, bar2_mem_canonicalSyncs k n,
      List.mem_cons, List.not_mem_nil]
    constructor
    · rintro (h | h | h | h | h)
      · omega
      · cases h
      · cases h
      · injection h with h2
        omega
      · cases h
    · intro h
      by_cases hk : n < k
      · exact Or.inl hk
      · have hnk : n = k := by omega
        subst hnk
        exact Or.inr (Or.inr (Or.inr (Or.inl rfl)))

theorem canonicalSyncs_split_lt {k : Nat} {a b : List SEvent}
    (h : canonicalSyncs k = a ++ b) {x y : SEvent} (hx : x ∈ a) (hy : y ∈ b) :
    sIdx x < sIdx y := by
  have hp : List.Pairwise (· < ·) (List.range (3 * k)) := List.pairwise_lt_range _
  rw [← map_sIdx_canonicalSyncs k, h, List.map_append] at hp
  exact (List.pairwise_append.mp hp).2.2 _ (List.mem_map_of_mem _ hx) _
    (List.mem_map_of_mem _ hy)

theorem mem_take_of_sIdx_lt {k m : Nat} {s t : SEvent}
    (hs : s ∈ (canonicalSyncs k).take m) (ht : t ∈ canonicalSyncs k)
    (hlt : sIdx t < sIdx s) : t ∈ (canonicalSyncs k).take m := by
  have hsplit : canonicalSyncs k =
      (canonicalSyncs k).take m ++ (canonicalSyncs k).drop m :=
    (List.take_append_drop m (canonicalSyncs k)).symm
  have ht2 := ht
  rw [hsplit] at ht2
  rcases List.mem_append.mp ht2 with hin | hin
  · exact hin
  · exact absurd (canonicalSyncs_split_lt hsplit hs hin) (by omega)

/-! ## Program order -/

theorem pairwise_opCode_iterOps (r : Nat) (pre : Option String) (dex : Nat → Bool)
    (n : Nat) :
    List.Pairwise (fun a b => opCode a < opCode b) (iterOps r pre dex n) := by
  by_cases hr : r = 0 <;> rcases pre with _ | p <;> by_cases hd : dex n = true <;>
    simp [iterOps, gateFeatureOps, gateOutputOps, hr, hd, List.pairwise_cons,
      opCode]

theorem opCode_iterOps_bounds (r : Nat) (pre : Option String) (dex : Nat → Bool)
    (n : Nat) :
    ∀ x ∈ iterOps r pre dex n, 13 * n + 2 ≤ opCode x ∧ opCode x ≤ 13 * n + 14 := by
  by_cases hr : r = 0 <;> rcases pre with _ | p <;> by_cases hd : dex n = true <;>
    simp [iterOps, gateFeatureOps, gateOutputOps, hr, hd, List.forall_mem_cons,
      opCode]

theorem opCode_loopOps_bound (r : Nat) (pre : Option String) (dex : Nat → Bool) :
    ∀ k, ∀ x ∈ loopOps r pre dex k, 2 ≤ opCode x ∧ opCode x ≤ 13 * k + 1
  | 0 => by simp [loopOps]
  | k + 1 => by
    intro x hx
    rcases List.mem_append.mp (by simpa only [loopOps] using hx) with h1 | h1
    · have := opCode_loopOps_bound r pre dex k x h1
      omega
    · have := opCode_iterOps_bounds r pre dex k x h1
      omega

theorem pairwise_opCode_loopOps (r : Nat) (pre : Option String) (dex : Nat → Bool) :
    ∀ k, List.Pairwise (fun a b => opCode a < opCode b) (loopOps r pre dex k)
  | 0 => by simp [loopOps]
  | k + 1 => by
    simp only [loopOps]
    refine List.pairwise_append.mpr
      ⟨pairwise_opCode_loopOps r pre dex k, pairwise_opCode_iterOps r pre dex k, ?_⟩
    intro a ha b hb
    have h1 := opCode_loopOps_bound r pre dex k a ha
    have h2 := opCode_iterOps_bounds r pre dex k b hb
    omega

theorem pairwise_opCode_prog (r : Nat) (pre : Option String) (dex : Nat → Bool)
    (odex : Bool) (k : Nat) :
    List.Pairwise (fun a b => opCode a < opCode b) (prog r pre dex odex k) := by
  have hl := pairwise_opCode_loopOps r pre dex k
  have hb := opCode_loopOps_bound r pre dex k
  by_cases ho : odex
  · rw [prog, if_pos ho, List.nil_append, List.singleton_append]
    refine List.pairwise_cons.mpr ⟨fun x hx => ?_, hl⟩
    have h1 := hb x hx
    have h2 : opCode (Op.act LEvent.readInput) = 1 := rfl
    omega
  · rw [prog, if_neg ho, List.singleton_append, List.cons_append]
    refine List.pairwise_cons.mpr ⟨fun x hx => ?_, ?_⟩
    · have h2 : opCode (Op.act LEvent.ensureOutputDir) = 0 := rfl
      rcases List.mem_cons.mp hx with rfl | hx2
      · simp [opCode]
      · have h1 := hb x hx2
        omega
    · refine List.pairwise_cons.mpr ⟨fun x hx => ?_, hl⟩
      have h1 := hb x hx
      have h2 : opCode (Op.act LEvent.readInput) = 1 := rfl
      omega

theorem prog_order {r : Nat} {pre : Option String} {dex : Nat → Bool} {odex : Bool}
    {k : Nat} {c d : List Op} (h : prog r pre dex odex k = c ++ d) {x y : Op}
    (hx : x ∈ c) (hy : y ∈ d) : opCode x < opCode y := by
  have hp := pairwise_opCode_prog r pre dex odex k
  rw [h] at hp
  exact (List.pairwise_append.mp hp).2.2 x hx y hy

/-! ## Membership characterizations of the per-rank programs -/

theorem forward_mem_iterOps (r : Nat) (pre : Option String) (dex : Nat → Bool)
    (n m : Nat) : Op.act (.forward m) ∈ iterOps r pre dex n ↔ m = n := by
  by_cases hr : r = 0 <;> rcases pre with _ | p <;> by_cases hd : dex n = true <;>
    simp [iterOps, gateFeatureOps, gateOutputOps, hr, hd]

theorem bcast_mem_iterOps (r : Nat) (pre : Option String) (dex : Nat → Bool)
    (n m : Nat) : Op.sync (.bcast m) ∈ iterOps r pre dex n ↔ m = n := by
  by_cases hr : r = 0 <;> rcases pre with _ | p <;> by_cases hd : dex n = true <;>
    simp [iterOps, gateFeatureOps, gateOutputOps, hr, hd]

theorem bar1_mem_iterOps (r : Nat) (pre : Option String) (dex : Nat → Bool)
    (n m : Nat) : Op.sync (.bar1 m) ∈ iterOps r pre dex n ↔ m = n := by
  by_cases hr : r = 0 <;> rcases pre with _ | p <;> by_cases hd : dex n = true <;>
    simp [iterOps, gateFeatureOps, gateOutputOps, hr, hd]

theorem bar2_mem_iterOps (r : Nat) (pre : Option String) (dex : Nat → Bool)
    (n m : Nat) : Op.sync (.bar2 m) ∈ iterOps r pre dex n ↔ m = n := by
  by_cases hr : r = 0 <;> rcases pre with _ | p <;> by_cases hd : dex n = true <;>
    simp [iterOps, gateFeatureOps, gateOutputOps, hr, hd]

theorem writeUnrelaxed_mem_iterOps (r : Nat) (pre : Option String) (dex : Nat → Bool)
    (n m : Nat) :
    Op.act (.writeUnrelaxed m) ∈ iterOps r pre dex n ↔ r = 0 ∧ m = n := by
  by_cases hr : r = 0 <;> rcases pre with _ | p <;> by_cases hd : dex n = true <;>
    simp [iterOps, gateFeatureOps, gateOutputOps, hr, hd]

theorem relaxCall_mem_iterOps (r : Nat) (pre : Option String) (dex : Nat → Bool)
    (n m : Nat) :
    Op.act (.relaxCall m) ∈ iterOps r pre dex n ↔ r = 0 ∧ m = n := by
  by_cases hr : r = 0 <;> rcases pre with _ | p <;> by_cases hd : dex n = true <;>
    simp [iterOps, gateFeatureOps, gateOutputOps, hr, hd]

theorem writeRelaxed_mem_iterOps (r : Nat) (pre : Option String) (dex : Nat → Bool)
    (n m : Nat) :
    Op.act (.writeRelaxed m) ∈ iterOps r pre dex n ↔ r = 0 ∧ m = n := by
  by_cases hr : r = 0 <;> rcases pre with _ | p <;> by_cases hd : dex n = true <;>
    simp [iterOps, gateFeatureOps, gateOutputOps, hr, hd]

theorem processFasta_mem_iterOps (r : Nat) (pre : Option String) (dex : Nat → Bool)
    (n m : Nat) :
    Op.act (.processFasta m) ∈ iterOps r pre dex n ↔ r = 0 ∧ m = n := by
  by_cases hr : r = 0 <;> rcases pre with _ | p <;> by_cases hd : dex n = true <;>
    simp [iterOps, gateFeatureOps, gateOutputOps, hr, hd]

theorem runAlignment_mem_iterOps (r : Nat) (pre : Option String) (dex : Nat → Bool)
    (n m : Nat) :
    Op.act (.runAlignment m) ∈ iterOps r pre dex n ↔ r = 0 ∧ pre = none ∧ m = n := by
  by_cases hr : r = 0 <;> rcases pre with _ | p <;> by_cases hd : dex n = true <;>
    simp [iterOps, gateFeatureOps, gateOutputOps, hr, hd]

theorem makeAlignDir_mem_iterOps (r : Nat) (pre : Option String) (dex : Nat → Bool)
    (n m : Nat) :
    Op.act (.makeAlignDir m) ∈ iterOps r pre dex n ↔
      r = 0 ∧ pre = none ∧ m = n ∧ dex n = false := by
  by_cases hr : r = 0 <;> rcases pre with _ | p <;> by_cases hd : dex n = true <;>
    simp [iterOps, gateFeatureOps, gateOutputOps, hr, hd]

theorem forward_mem_loopOps (r : Nat) (pre : Option String) (dex : Nat → Bool) :
    ∀ k m, Op.act (.forward m) ∈ loopOps r pre dex k ↔ m < k
  | 0, m => by simp [loopOps]
  | k + 1, m => by
    simp only [loopOps, List.mem_append, forward_mem_loopOps r pre dex k m,
      forward_mem_iterOps]
    omega

theorem bcast_mem_loopOps (r : Nat) (pre : Option String) (dex : Nat → Bool) :
    ∀ k m, Op.sync (.bcast m) ∈ loopOps r pre dex k ↔ m < k
  | 0, m => by simp [loopOps]
  | k + 1, m => by
    simp only [loopOps, List.mem_append, bcast_mem_loopOps r pre dex k m,
      bcast_mem_iterOps]
    omega

theorem bar1_mem_loopOps (r : Nat) (pre : Option String) (dex : Nat → Bool) :
    ∀ k m, Op.sync (.bar1 m) ∈ loopOps r pre dex k ↔ m < k
  | 0, m => by simp [loopOps]
  | k + 1, m => by
    simp only [loopOps, List.mem_append, bar1_mem_loopOps r pre dex k m,
      bar1_mem_iterOps]
    omega

theorem writeUnrelaxed_mem_loopOps (r : Nat) (pre : Option String) (dex : Nat → Bool) :
    ∀ k m, Op.act (.writeUnrelaxed m) ∈ loopOps r pre dex k ↔ r = 0 ∧ m < k
  | 0, m => by simp [loopOps]
  | k + 1, m => by
    simp only [loopOps, List.mem_append, writeUnrelaxed_mem_loopOps r pre dex k m,
      writeUnrelaxed_mem_iterOps]
    constructor
    · rintro (⟨h1, h2⟩ | ⟨h1, h2⟩) <;> exact ⟨h1, by omega⟩
    · rintro ⟨h1, h2⟩
      by_cases hm : m < k
      · exact Or.inl ⟨h1, hm⟩
      · exact Or.inr ⟨h1, by omega⟩

theorem relaxCall_mem_loopOps (r : Nat) (pre : Option String) (dex : Nat → Bool) :
    ∀ k m, Op.act (.relaxCall m) ∈ loopOps r pre dex k ↔ r = 0 ∧ m < k
  | 0, m => by simp [loopOps]
  | k + 1, m => by
    simp only [loopOps, List.mem_append, relaxCall_mem_loopOps r pre dex k m,
      relaxCall_mem_iterOps]
    constructor
    · rintro (⟨h1, h2⟩ | ⟨h1, h2⟩) <;> exact ⟨h1, by omega⟩
    · rintro ⟨h1, h2⟩
      by_cases hm : m < k
      · exact Or.inl ⟨h1, hm⟩
      · exact Or.inr ⟨h1, by omega⟩

theorem writeRelaxed_mem_loopOps (r : Nat) (pre : Option String) (dex : Nat → Bool) :
    ∀ k m, Op.act (.writeRelaxed m) ∈ loopOps r pre dex k ↔ r = 0 ∧ m < k
  | 0, m => by simp [loopOps]
  | k + 1, m => by
    simp only [loopOps, List.mem_append, writeRelaxed_mem_loopOps r pre dex k m,
      writeRelaxed_mem_iterOps]
    constructor
    · rintro (⟨h1, h2⟩ | ⟨h1, h2⟩) <;> exact ⟨h1, by omega⟩
    · rintro ⟨h1, h2⟩
      by_cases hm : m < k
      · exact Or.inl ⟨h1, hm⟩
      · exact Or.inr ⟨h1, by omega⟩

theorem processFasta_mem_loopOps (r : Nat) (pre : Option String) (dex : Nat → Bool) :
    ∀ k m, Op.act (.processFasta m) ∈ loopOps r pre dex k ↔ r = 0 ∧ m < k
  | 0, m => by simp [loopOps]
  | k + 1, m => by
    simp only [loopOps, List.mem_append, processFasta_mem_loopOps r pre dex k m,
      processFasta_mem_iterOps]
    constructor
    · rintro (⟨h1, h2⟩ | ⟨h1, h2⟩) <;> exact ⟨h1, by omega⟩
    · rintro ⟨h1, h2⟩
      by_cases hm : m < k
      · exact Or.inl ⟨h1, hm⟩
      · exact Or.inr ⟨h1, by omega⟩

theorem runAlignment_mem_loopOps (r : Nat) (pre : Option String) (dex : Nat → Bool) :
    ∀ k m, Op.act (.runAlignment m) ∈ loopOps r pre dex k ↔ r = 0 ∧ pre = none ∧ m < k
  | 0, m => by simp [loopOps]
  | k + 1, m => by
    simp only [loopOps, List.mem_append, runAlignment_mem_loopOps r pre dex k m,
      runAlignment_mem_iterOps]
    constructor
    · rintro (⟨h1, h2, h3⟩ | ⟨h1, h2, h3⟩) <;> exact ⟨h1, h2, by omega⟩
    · rintro ⟨h1, h2, h3⟩
      by_cases hm : m < k
      · exact Or.inl ⟨h1, h2, hm⟩
      · exact Or.inr ⟨h1, h2, by omega⟩

theorem makeAlignDir_mem_loopOps (r : Nat) (pre : Option String) (dex : Nat → Bool) :
    ∀ k m, Op.act (.makeAlignDir m) ∈ loopOps r pre dex k ↔
      r = 0 ∧ pre = none ∧ m < k ∧ dex m = false
  | 0, m => by simp [loopOps]
  | k + 1, m => by
    simp only [loopOps, List.mem_append, makeAlignDir_mem_loopOps r pre dex k m,
      makeAlignDir_mem_iterOps]
    constructor
    · rintro (⟨h1, h2, h3, h4⟩ | ⟨h1, h2, h3, h4⟩)
      · exact ⟨h1, h2, by omega, h4⟩
      · subst h3
        exact ⟨h1, h2, by omega, h4⟩
    · rintro ⟨h1, h2, h3, h4⟩
      by_cases hm : m < k
      · exact Or.inl ⟨h1, h2, hm, h4⟩
      · have hmk : m = k := by omega
        subst hmk
        exact Or.inr ⟨h1, h2, rfl, h4⟩

theorem act_mem_prelude {e : LEvent} {odex : Bool} {tail : List Op}
    (he : Op.act e ∈ ((if odex then ([] : List Op) else [.act .ensureOutputDir]) ++
      [.act .readInput] ++ tail)) :
    e = .readInput ∨ e = .ensureOutputDir ∨ Op.act e ∈ tail := by
  by_cases ho : odex
  · rw [if_pos ho, List.nil_append, List.singleton_append] at he
    rcases List.mem_cons.mp he with h | h
    · injection h with h2
      exact Or.inl h2
    · exact Or.inr (Or.inr h)
  · rw [if_neg ho, List.singleton_append, List.cons_append] at he
    rcases List.mem_cons.mp he with h | h
    · injection h with h2
      exact Or.inr (Or.inl h2)
    · rcases List.mem_cons.mp h with h1 | h1
      · injection h1 with h2
        exact Or.inl h2
      · exact Or.inr (Or.inr h1)

theorem prelude_mem_of_mem_loopOps {x : Op} {odex : Bool} {tail : List Op}
    (hx : x ∈ tail) :
    x ∈ ((if odex then ([] : List Op) else [.act .ensureOutputDir]) ++
      [.act .readInput] ++ tail) := by
  exact List.mem_append.mpr (Or.inr hx)

theorem forward_mem_prog (r : Nat) (pre : Option String) (dex : Nat → Bool)
    (odex : Bool) (k m : Nat) :
    Op.act (.forward m) ∈ prog r pre dex odex k ↔ m < k := by
  rw [prog]
  constructor
  · intro h
    rcases act_mem_prelude h with h1 | h1 | h1
    · cases h1
    · cases h1
    · exact (forward_mem_loopOps r pre dex k m).mp h1
  · intro h
    exact prelude_mem_of_mem_loopOps ((forward_mem_loopOps r pre dex k m).mpr h)

theorem writeUnrelaxed_mem_prog (r : Nat) (pre : Option String) (dex : Nat → Bool)
    (odex : Bool) (k m : Nat) :
    Op.act (.writeUnrelaxed m) ∈ prog r pre dex odex k ↔ r = 0 ∧ m < k := by
  rw [prog]
  constructor
  · intro h
    rcases act_mem_prelude h with h1 | h1 | h1
    · cases h1
    · cases h1
    · exact (writeUnrelaxed_mem_loopOps r pre dex k m).mp h1
  · intro h
    exact prelude_mem_of_mem_loopOps ((writeUnrelaxed_mem_loopOps r pre dex k m).mpr h)

theorem relaxCall_mem_prog (r : Nat) (pre : Option String) (dex : Nat → Bool)
    (odex : Bool) (k m : Nat) :
    Op.act (.relaxCall m) ∈ prog r pre dex odex k ↔ r = 0 ∧ m < k := by
  rw [prog]
  constructor
  · intro h
    rcases act_mem_prelude h with h1 | h1 | h1
    · cases h1
    · cases h1
    · exact (relaxCall_mem_loopOps r pre dex k m).mp h1
  · intro h
    exact prelude_mem_of_mem_loopOps ((relaxCall_mem_loopOps r pre dex k m).mpr h)

theorem writeRelaxed_mem_prog (r : Nat) (pre : Option String) (dex : Nat → Bool)
    (odex : Bool) (k m : Nat) :
    Op.act (.writeRelaxed m) ∈ prog r pre dex odex k ↔ r = 0 ∧ m < k := by
  rw [prog]
  constructor
  · intro h
    rcases act_mem_prelude h with h1 | h1 | h1
    · cases h1
    · cases h1
    · exact (writeRelaxed_mem_loopOps r pre dex k m).mp h1
  · intro h
    exact prelude_mem_of_mem_loopOps ((writeRelaxed_mem_loopOps r pre dex k m).mpr h)

theorem processFasta_mem_prog (r : Nat) (pre : Option String) (dex : Nat → Bool)
    (odex : Bool) (k m : Nat) :
    Op.act (.processFasta m) ∈ prog r pre dex odex k ↔ r = 0 ∧ m < k := by
  rw [prog]
  constructor
  · intro h
    rcases act_mem_prelude h with h1 | h1 | h1
    · cases h1
    · cases h1
    · exact (processFasta_mem_loopOps r pre dex k m).mp h1
  · intro h
    exact prelude_mem_of_mem_loopOps ((processFasta_mem_loopOps r pre dex k m).mpr h)

theorem runAlignment_mem_prog (r : Nat) (pre : Option String) (dex : Nat → Bool)
    (odex : Bool) (k m : Nat) :
    Op.act (.runAlignment m) ∈ prog r pre dex odex k ↔ r = 0 ∧ pre = none ∧ m < k := by
  rw [prog]
  constructor
  · intro h
    rcases act_mem_prelude h with h1 | h1 | h1
    · cases h1
    · cases h1
    · exact (runAlignment_mem_loopOps r pre dex k m).mp h1
  · intro h
    exact prelude_mem_of_mem_loopOps ((runAlignment_mem_loopOps r pre dex k m).mpr h)

theorem makeAlignDir_mem_prog (r : Nat) (pre : Option String) (dex : Nat → Bool)
    (odex : Bool) (k m : Nat) :
    Op.act (.makeAlignDir m) ∈ prog r pre dex odex k ↔
      r = 0 ∧ pre = none ∧ m < k ∧ dex m = false := by
  rw [prog]
  constructor
  · intro h
    rcases act_mem_prelude h with h1 | h1 | h1
    · cases h1
    · cases h1
    · exact (makeAlignDir_mem_loopOps r pre dex k m).mp h1
  · intro h
    exact prelude_mem_of_mem_loopOps ((makeAlignDir_mem_loopOps r pre dex k m).mpr h)

theorem sync_mem_prog_iff (r : Nat) (pre : Option String) (dex : Nat → Bool)
    (odex : Bool) (k : Nat) (s : SEvent) :
    Op.sync s ∈ prog r pre dex odex k ↔ s ∈ canonicalSyncs k := by
  constructor
  · intro h
    have : s ∈ syncsOf (prog r pre dex odex k) := by
      exact List.mem_filterMap.mpr ⟨_, h, rfl⟩
    rwa [syncsOf_prog] at this
  · intro h
    rw [← syncsOf_prog r pre dex odex k] at h
    obtain ⟨op, hop, hf⟩ := List.mem_filterMap.mp h
    cases op with
    | act e => simp at hf
    | sync s2 =>
      simp at hf
      subst hf
      exact hop

theorem act_mem_loopOps_ne_zero (r : Nat) (pre : Option String) (dex : Nat → Bool)
    (hr : r ≠ 0) : ∀ k (e : LEvent), Op.act e ∈ loopOps r pre dex k → ∃ n, e = .forward n
  | 0, e, he => by simp [loopOps] at he
  | k + 1, e, he => by
    rcases List.mem_append.mp (by simpa only [loopOps] using he) with h1 | h1
    · exact act_mem_loopOps_ne_zero r pre dex hr k e h1
    · rw [iterOps, if_neg hr, if_neg hr] at h1
      simp at h1
      exact ⟨k, h1⟩

/-! ## The invariant holds along every execution -/

theorem sync_mem_traceSyncs {t : List TEvent} {s : SEvent} :
    TEvent.sync s ∈ t ↔ s ∈ traceSyncs t := by
  constructor
  · intro h
    exact List.mem_filterMap.mpr ⟨_, h, rfl⟩
  · intro h
    obtain ⟨ev, hev, hf⟩ := List.mem_filterMap.mp h
    cases ev with
    | act p e => simp at hf
    | sync s2 =>
      simp at hf
      subst hf
      exact hev

theorem sync_mem_syncsOf {l : List Op} {s : SEvent} :
    Op.sync s ∈ l ↔ s ∈ syncsOf l := by
  constructor
  · intro h
    exact List.mem_filterMap.mpr ⟨_, h, rfl⟩
  · intro h
    obtain ⟨op, hop, hf⟩ := List.mem_filterMap.mp h
    cases op with
    | act e => simp at hf
    | sync s2 =>
      simp at hf
      subst hf
      exact hop

theorem traceSyncs_append_act (t : List TEvent) (p : Nat) (e : LEvent) :
    traceSyncs (t ++ [.act p e]) = traceSyncs t := by
  simp [traceSyncs, List.filterMap_append]

theorem traceSyncs_append_sync (t : List TEvent) (s : SEvent) :
    traceSyncs (t ++ [.sync s]) = traceSyncs t ++ [s] := by
  simp [traceSyncs, List.filterMap_append]

theorem inv_init (N : Nat) (pre : Option String) (dex : Nat → Bool) (odex : Bool)
    (k : Nat) : Inv N pre dex odex k (initState N pre dex odex k) := by
  refine ⟨0, by simp [initState, traceSyncs], fun p => ⟨[], by simp [initState],
    by simp [syncsOf], ?_, fun e => by simp [initState]⟩⟩
  simp [initState, syncsOf_prog]

theorem inv_step {N : Nat} {pre : Option String} {dex : Nat → Bool} {odex : Bool}
    {k : Nat} {st st2 : GState N} (hN : 0 < N) (hstep : Step N st st2)
    (hinv : Inv N pre dex odex k st) : Inv N pre dex odex k st2 := by
  obtain ⟨m, htr, hproc⟩ := hinv
  cases hstep with
  | act p e rest h =>
    refine ⟨m, ?_, fun q => ?_⟩
    · show traceSyncs (st.trace ++ [.act p.val e]) = (canonicalSyncs k).take m
      rw [traceSyncs_append_act, htr]
    · obtain ⟨c, hc, hcs, hps, hiff⟩ := hproc q
      by_cases hq : q = p
      · subst hq
        refine ⟨c ++ [Op.act e], ?_, ?_, ?_, ?_⟩
        · show prog q.val pre dex odex k =
            c ++ [Op.act e] ++ Function.update st.procs q rest q
          rw [Function.update_same, hc, h]
          simp
        · rw [syncsOf_append, hcs]
          simp [syncsOf]
        · show syncsOf (Function.update st.procs q rest q) =
            (canonicalSyncs k).drop m
          rw [Function.update_same]
          rw [h] at hps
          simpa [syncsOf] using hps
        · intro e2
          show Op.act e2 ∈ c ++ [Op.act e] ↔
            TEvent.act q.val e2 ∈ st.trace ++ [TEvent.act q.val e]
          rw [List.mem_append, List.mem_append, List.mem_singleton,
            List.mem_singleton, hiff e2]
          constructor
          · rintro (h1 | h1)
            · exact Or.inl h1
            · injection h1 with h2
              subst h2
              exact Or.inr rfl
          · rintro (h1 | h1)
            · exact Or.inl h1
            · injection h1 with h2 h3
              subst h3
              exact Or.inr rfl
      · refine ⟨c, ?_, hcs, ?_, ?_⟩
        · show prog q.val pre dex odex k = c ++ Function.update st.procs p rest q
          rw [Function.update_noteq hq]
          exact hc
        · show syncsOf (Function.update st.procs p rest q) =
            (canonicalSyncs k).drop m
          rw [Function.update_noteq hq]
          exact hps
        · intro e2
          show Op.act e2 ∈ c ↔
            TEvent.act q.val e2 ∈ st.trace ++ [TEvent.act p.val e]
          rw [List.mem_append, List.mem_singleton, hiff e2]
          constructor
          · intro h1
            exact Or.inl h1
          · rintro (h1 | h1)
            · exact h1
            · exfalso
              injection h1 with h2 h3
              exact hq (Fin.val_injective h2)
  | sync s rest h =>
    have p0 : Fin N := ⟨0, hN⟩
    obtain ⟨c0, hc0, hcs0, hps0, hiff0⟩ := hproc p0
    have hdrop : (canonicalSyncs k).drop m = s :: syncsOf (rest p0) := by
      rw [← hps0, h p0]
      rfl
    have htake : (canonicalSyncs k).take (m + 1) =
        (canonicalSyncs k).take m ++ [s] := by
      rw [List.take_succ, getElem?_of_drop_eq_cons hdrop]
      rfl
    refine ⟨m + 1, ?_, fun q => ?_⟩
    · show traceSyncs (st.trace ++ [.sync s]) = (canonicalSyncs k).take (m + 1)
      rw [traceSyncs_append_sync, htr, htake]
    · obtain ⟨c, hc, hcs, hps, hiff⟩ := hproc q
      refine ⟨c ++ [Op.sync s], ?_, ?_, ?_, ?_⟩
      · show prog q.val pre dex odex k = c ++ [Op.sync s] ++ rest q
        rw [hc, h q]
        simp
      · rw [syncsOf_append, hcs, htake]
        rfl
      · show syncsOf (rest q) = (canonicalSyncs k).drop (m + 1)
        have hdq : (canonicalSyncs k).drop m = s :: syncsOf (rest q) := by
          rw [← hps, h q]
          rfl
        exact (drop_succ_of_drop_eq_cons hdq).symm
      · intro e2
        show Op.act e2 ∈ c ++ [Op.sync s] ↔
          TEvent.act q.val e2 ∈ st.trace ++ [TEvent.sync s]
        rw [List.mem_append, List.mem_singleton, List.mem_append,
          List.mem_singleton, hiff e2]
        constructor
        · rintro (h1 | h1)
          · exact Or.inl h1
          · cases h1
        · rintro (h1 | h1)
          · exact Or.inl h1
          · cases h1

theorem inv_reachable {N : Nat} {pre : Option String} {dex : Nat → Bool}
    {odex : Bool} {k : Nat} {st : GState N} (hN : 0 < N)
    (h : Reachable N pre dex odex k st) : Inv N pre dex odex k st := by
  induction h with
  | refl => exact inv_init N pre dex odex k
  | tail hsteps hstep ih => exact inv_step hN hstep ih

theorem output_event_code_gt {n : Nat} {e : LEvent}
    (he : e = .writeUnrelaxed n ∨ e = .relaxCall n ∨ e = .writeRelaxed n) :
    13 * n + 10 < opCode (Op.act e) := by
  rcases he with rfl | rfl | rfl <;> simp [opCode]

theorem output_event_code_le {n : Nat} {e : LEvent}
    (he : e = .writeUnrelaxed n ∨ e = .relaxCall n ∨ e = .writeRelaxed n) :
    opCode (Op.act e) ≤ 13 * n + 13 := by
  rcases he with rfl | rfl | rfl <;> simp only [opCode] <;> omega

theorem step_act_single {st : GState 1} {e : LEvent} {rest : List Op}
    (h : st.procs ⟨0, Nat.one_pos⟩ = .act e :: rest) :
    Step 1 st ⟨fun _ => rest, st.trace ++ [.act 0 e]⟩ := by
  have hs := Step.act st ⟨0, Nat.one_pos⟩ e rest h
  have heq : Function.update st.procs ⟨0, Nat.one_pos⟩ rest = fun _ => rest := by
    funext q
    have hq : q = ⟨0, Nat.one_pos⟩ := by
      apply Fin.ext
      have h2 := q.isLt
      omega
    rw [hq, Function.update_same]
  rw [heq] at hs
  exact hs

theorem step_sync_single {st : GState 1} {s : SEvent} {rest : List Op}
    (h : st.procs ⟨0, Nat.one_pos⟩ = .sync s :: rest) :
    Step 1 st ⟨fun _ => rest, st.trace ++ [.sync s]⟩ := by
  refine Step.sync st s (fun _ => rest) (fun p => ?_)
  have hq : p = ⟨0, Nat.one_pos⟩ := by
    apply Fin.ext
    have h2 := p.isLt
    omega
  rw [hq]
  exact h

/-- A complete execution of a one-process group over one sequence (precomputed
alignments, output directory already present): twelve steps from the initial
state to `fullRunState`. -/
theorem reachable_full_run :
    Reachable 1 (some "a") (fun _ => false) true 1 fullRunState := by
  have h0 : Reachable 1 (some "a") (fun _ => false) true 1
      (initState 1 (some "a") (fun _ => false) true 1) := Relation.ReflTransGen.refl
  have h1 := Relation.ReflTransGen.tail h0 (step_act_single rfl)
  have h2 := Relation.ReflTransGen.tail h1 (step_act_single rfl)
  have h3 := Relation.ReflTransGen.tail h2 (step_act_single rfl)
  have h4 := Relation.ReflTransGen.tail h3 (step_act_single rfl)
  have h5 := Relation.ReflTransGen.tail h4 (step_act_single rfl)
  have h6 := Relation.ReflTransGen.tail h5 (step_sync_single rfl)
  have h7 := Relation.ReflTransGen.tail h6 (step_act_single rfl)
  have h8 := Relation.ReflTransGen.tail h7 (step_sync_single rfl)
  have h9 := Relation.ReflTransGen.tail h8 (step_act_single rfl)
  have h10 := Relation.ReflTransGen.tail h9 (step_act_single rfl)
  have h11 := Relation.ReflTransGen.tail h10 (step_act_single rfl)
  exact Relation.ReflTransGen.tail h11 (step_sync_single rfl)

theorem output_event_mem_prog {r : Nat} {pre : Option String} {dex : Nat → Bool}
    {odex : Bool} {k n : Nat} {e : LEvent}
    (he : e = .writeUnrelaxed n ∨ e = .relaxCall n ∨ e = .writeRelaxed n)
    (hep : Op.act e ∈ prog r pre dex odex k) : r = 0 ∧ n < k := by
  rcases he with rfl | rfl | rfl
  · exact (writeUnrelaxed_mem_prog _ _ _ _ _ _).mp hep
  · exact (relaxCall_mem_prog _ _ _ _ _ _).mp hep
  · exact (writeRelaxed_mem_prog _ _ _ _ _ _).mp hep

/-- C7: in every reachable state of the interleaving rendezvous semantics, for
every sequence index `n`: the broadcast of sequence `n + 1` never appears in
the trace before the second barrier of sequence `n` has happened (no
cross-sequence pipelining); a process's forward pass for sequence `n` happens
only after its broadcast; the first barrier happens only after every process's
forward pass; gate-only result handling (unrelaxed write, refinement, relaxed
write) happens only on rank 0, strictly between the two barriers — only after
the first barrier, and completed before the second barrier fires; and the
second barrier never precedes the first. -/
theorem barrier_broadcast_ordering {N k : Nat} {pre : Option String}
    {dex : Nat → Bool} {odex : Bool} {st : GState (N + 1)}
    (h : Reachable (N + 1) pre dex odex k st) (n : Nat) :
    (TEvent.sync (.bcast (n + 1)) ∈ st.trace → TEvent.sync (.bar2 n) ∈ st.trace) ∧
    (∀ p : Fin (N + 1), TEvent.act p.val (.forward n) ∈ st.trace →
      TEvent.sync (.bcast n) ∈ st.trace) ∧
    (TEvent.sync (.bar1 n) ∈ st.trace →
      ∀ p : Fin (N + 1), TEvent.act p.val (.forward n) ∈ st.trace) ∧
    (∀ (p : Fin (N + 1)) (e : LEvent),
      (e = .writeUnrelaxed n ∨ e = .relaxCall n ∨ e = .writeRelaxed n) →
      TEvent.act p.val e ∈ st.trace →
      p.val = 0 ∧ TEvent.sync (.bar1 n) ∈ st.trace) ∧
    (TEvent.sync (.bar2 n) ∈ st.trace →
      TEvent.act 0 (.writeUnrelaxed n) ∈ st.trace ∧
      TEvent.act 0 (.relaxCall n) ∈ st.trace ∧
      TEvent.act 0 (.writeRelaxed n) ∈ st.trace) ∧
    (TEvent.sync (.bar2 n) ∈ st.trace → TEvent.sync (.bar1 n) ∈ st.trace) := by
  obtain ⟨m, htr, hproc⟩ := inv_reachable (Nat.succ_pos N) h
  have htr2 : ∀ s : SEvent, TEvent.sync s ∈ st.trace ↔
      s ∈ (canonicalSyncs k).take m := by
    intro s
    rw [sync_mem_traceSyncs, htr]
  refine ⟨?_, ?_, ?_, ?_, ?_, ?_⟩
  · intro hb
    have h1 := (htr2 _).mp hb
    have hsub : SEvent.bcast (n + 1) ∈ canonicalSyncs k := List.take_subset _ _ h1
    have hnk : n + 1 < k := (bcast_mem_canonicalSyncs k (n + 1)).mp hsub
    have hbm : SEvent.bar2 n ∈ canonicalSyncs k :=
      (bar2_mem_canonicalSyncs k n).mpr (by omega)
    have h2 : SEvent.bar2 n ∈ (canonicalSyncs k).take m :=
      mem_take_of_sIdx_lt h1 hbm (by simp only [sIdx]; omega)
    exact (htr2 _).mpr h2
  · intro p hf
    obtain ⟨c, hc, hcs, hps, hiff⟩ := hproc p
    have hfc : Op.act (.forward n) ∈ c := (hiff _).mpr hf
    have hfprog : Op.act (.forward n) ∈ prog p.val pre dex odex k := by
      rw [hc]
      exact List.mem_append.mpr (Or.inl hfc)
    have hnk : n < k := (forward_mem_prog _ _ _ _ _ _).mp hfprog
    have hbp : Op.sync (.bcast n) ∈ prog p.val pre dex odex k :=
      (sync_mem_prog_iff _ _ _ _ _ _).mpr ((bcast_mem_canonicalSyncs k n).mpr hnk)
    rw [hc] at hbp
    rcases List.mem_append.mp hbp with hin | hin
    · have h3 : SEvent.bcast n ∈ syncsOf c := sync_mem_syncsOf.mp hin
      rw [hcs] at h3
      exact (htr2 _).mpr h3
    · exfalso
      have hlt := prog_order hc hfc hin
      simp only [opCode] at hlt
      omega
  · intro hb1 p
    have h1 := (htr2 _).mp hb1
    obtain ⟨c, hc, hcs, hps, hiff⟩ := hproc p
    have hbc : Op.sync (.bar1 n) ∈ c := by
      apply sync_mem_syncsOf.mpr
      rw [hcs]
      exact h1
    have hnk : n < k := (bar1_mem_canonicalSyncs k n).mp (List.take_subset _ _ h1)
    have hfp : Op.act (.forward n) ∈ prog p.val pre dex odex k :=
      (forward_mem_prog _ _ _ _ _ _).mpr hnk
    rw [hc] at hfp
    rcases List.mem_append.mp hfp with hin | hin
    · exact (hiff _).mp hin
    · exfalso
      have hlt := prog_order hc hbc hin
      simp only [opCode] at hlt
      omega
  · intro p e he hact
    obtain ⟨c, hc, hcs, hps, hiff⟩ := hproc p
    have hec : Op.act e ∈ c := (hiff _).mpr hact
    have hep : Op.act e ∈ prog p.val pre dex odex k := by
      rw [hc]
      exact List.mem_append.mpr (Or.inl hec)
    have h0 := output_event_mem_prog he hep
    refine ⟨h0.1, ?_⟩
    have hb1p : Op.sync (.bar1 n) ∈ prog p.val pre dex odex k :=
      (sync_mem_prog_iff _ _ _ _ _ _).mpr ((bar1_mem_canonicalSyncs k n).mpr h0.2)
    rw [hc] at hb1p
    rcases List.mem_append.mp hb1p with hin | hin
    · have h3 : SEvent.bar1 n ∈ syncsOf c := sync_mem_syncsOf.mp hin
      rw [hcs] at h3
      exact (htr2 _).mpr h3
    · exfalso
      have hlt := prog_order hc hec hin
      have hgt := output_event_code_gt he
      have hcode : opCode (Op.sync (.bar1 n)) = 13 * n + 10 := rfl
      omega
  · intro hb2
    have h1 := (htr2 _).mp hb2
    have hnk : n < k := (bar2_mem_canonicalSyncs k n).mp (List.take_subset _ _ h1)
    obtain ⟨c, hc, hcs, hps, hiff⟩ := hproc ⟨0, Nat.succ_pos N⟩
    have hc0 : prog (0 : Nat) pre dex odex k =
        c ++ st.procs ⟨0, Nat.succ_pos N⟩ := hc
    have hbc : Op.sync (.bar2 n) ∈ c := by
      apply sync_mem_syncsOf.mpr
      rw [hcs]
      exact h1
    have key : ∀ e : LEvent,
        (e = .writeUnrelaxed n ∨ e = .relaxCall n ∨ e = .writeRelaxed n) →
        TEvent.act 0 e ∈ st.trace := by
      intro e he
      have hep : Op.act e ∈ prog (0 : Nat) pre dex odex k := by
        rcases he with rfl | rfl | rfl
        · exact (writeUnrelaxed_mem_prog _ _ _ _ _ _).mpr ⟨rfl, hnk⟩
        · exact (relaxCall_mem_prog _ _ _ _ _ _).mpr ⟨rfl, hnk⟩
        · exact (writeRelaxed_mem_prog _ _ _ _ _ _).mpr ⟨rfl, hnk⟩
      rw [hc0] at hep
      rcases List.mem_append.mp hep with hin | hin
      · exact (hiff _).mp hin
      · exfalso
        have hlt := prog_order hc0 hbc hin
        have hle := output_event_code_le he
        have hcode : opCode (Op.sync (.bar2 n)) = 13 * n + 14 := rfl
        omega
    exact ⟨key _ (Or.inl rfl), key _ (Or.inr (Or.inl rfl)),
      key _ (Or.inr (Or.inr rfl))⟩
  · intro hb2
    have h1 := (htr2 _).mp hb2
    have hnk : n < k := (bar2_mem_canonicalSyncs k n).mp (List.take_subset _ _ h1)
    have hbm : SEvent.bar1 n ∈ canonicalSyncs k :=
      (bar1_mem_canonicalSyncs k n).mpr hnk
    have h2 : SEvent.bar1 n ∈ (canonicalSyncs k).take m :=
      mem_take_of_sIdx_lt h1 hbm (by simp only [sIdx]; omega)
    exact (htr2 _).mpr h2

/-- C7 witness: the ordering guarantees instantiated at `fullRunState`, a
concrete reachable state whose trace contains a complete sequence — there the
broadcast, forward, both barriers and all three gate output events are in the
trace, so every ordering conclusion is exercised non-vacuously. -/
theorem barrier_broadcast_ordering_app :
    (TEvent.sync (.bcast 1) ∈ fullRunState.trace →
      TEvent.sync (.bar2 0) ∈ fullRunState.trace) ∧
    (∀ p : Fin 1, TEvent.act p.val (.forward 0) ∈ fullRunState.trace →
      TEvent.sync (.bcast 0) ∈ fullRunState.trace) ∧
    (TEvent.sync (.bar1 0) ∈ fullRunState.trace →
      ∀ p : Fin 1, TEvent.act p.val (.forward 0) ∈ fullRunState.trace) ∧
    (∀ (p : Fin 1) (e : LEvent),
      (e = .writeUnrelaxed 0 ∨ e = .relaxCall 0 ∨ e = .writeRelaxed 0) →
      TEvent.act p.val e ∈ fullRunState.trace →
      p.val = 0 ∧ TEvent.sync (.bar1 0) ∈ fullRunState.trace) ∧
    (TEvent.sync (.bar2 0) ∈ fullRunState.trace →
      TEvent.act 0 (.writeUnrelaxed 0) ∈ fullRunState.trace ∧
      TEvent.act 0 (.relaxCall 0) ∈ fullRunState.trace ∧
      TEvent.act 0 (.writeRelaxed 0) ∈ fullRunState.trace) ∧
    (TEvent.sync (.bar2 0) ∈ fullRunState.trace →
      TEvent.sync (.bar1 0) ∈ fullRunState.trace) :=
  @barrier_broadcast_ordering 0 1 (some "a") (fun _ => false) true
    fullRunState reachable_full_run 0

/-- C6 counterexample: a non-gate rank's program contains the input-file read
(lines 119-120 are not rank-guarded) and the output-directory creation
(lines 111-112), refuting that external filesystem I/O is exclusive to
rank 0. -/
theorem nonGate_reads_input :
    Op.act LEvent.readInput ∈ prog 1 none (fun _ => false) false 1 ∧
    Op.act LEvent.ensureOutputDir ∈ prog 1 none (fun _ => false) false 1 := by
  decide

/-- C6 amended: inside the per-sequence loop all filesystem events (temporary
fasta, alignment directories, the output artifacts) belong exclusively to
rank 0 — a non-gate rank's whole program consists of the unguarded input read,
the unguarded output-directory creation, and the per-sequence forward
passes. -/
theorem nonGate_no_loop_filesystem_events (r : Nat) (pre : Option String)
    (dex : Nat → Bool) (odex : Bool) (k : Nat) (hr : r ≠ 0) (e : LEvent)
    (he : Op.act e ∈ prog r pre dex odex k) :
    e = .readInput ∨ e = .ensureOutputDir ∨ ∃ n, e = .forward n := by
  rw [prog] at he
  rcases act_mem_prelude he with h1 | h1 | h1
  · exact Or.inl h1
  · exact Or.inr (Or.inl h1)
  · exact Or.inr (Or.inr (act_mem_loopOps_ne_zero r pre dex hr k e h1))

/-- C6 witness: the amended classification applied to rank 1's forward event
in a concrete program. -/
theorem nonGate_no_loop_filesystem_events_app :
    ((1 : Nat) ≠ 0 ∧ Op.act (.forward 0) ∈ prog 1 none (fun _ => false) false 1) ∧
    (LEvent.forward 0 = .readInput ∨ LEvent.forward 0 = .ensureOutputDir ∨
      ∃ n, LEvent.forward 0 = LEvent.forward n) :=
  ⟨⟨by decide, by decide⟩,
    nonGate_no_loop_filesystem_events 1 none (fun _ => false) false 1 (by decide)
      (.forward 0) (by decide)⟩

/-- C9: a supplied precomputed alignment directory skips the alignment block
entirely (the features are then read from that directory); otherwise the
per-sequence directory `<output_dir>/alignments/<tag>` is created only when
absent and the alignment run is invoked unconditionally for every sequence —
an already-populated directory is not special-cased. -/
theorem alignment_stage_behavior :
    (∀ (p : String) (dirExists : Bool), alignmentStageActions (some p) dirExists = []) ∧
    (∀ dirExists : Bool, AlignAction.runAlignment ∈ alignmentStageActions none dirExists) ∧
    (∀ dirExists : Bool,
      AlignAction.makeDirs ∈ alignmentStageActions none dirExists ↔ dirExists = false) ∧
    localAlignmentDir (resolveAlignmentDir none "od") "t" = "od/alignments/t" ∧
    (∀ p tag : String,
      localAlignmentDir (resolveAlignmentDir (some p) "od") tag = p ++ "/" ++ tag) ∧
    (∀ (dex : Nat → Bool) (odex : Bool) (k m : Nat),
      (Op.act (.runAlignment m) ∈ prog 0 none dex odex k ↔ m < k) ∧
      (Op.act (.makeAlignDir m) ∈ prog 0 none dex odex k ↔ m < k ∧ dex m = false) ∧
      (Op.act (.processFasta m) ∈ prog 0 none dex odex k ↔ m < k) ∧
      (∀ (r : Nat) (p : String),
        Op.act (.runAlignment m) ∉ prog r (some p) dex odex k)) := by
  refine ⟨fun p dirExists => rfl, fun dirExists => ?_, fun dirExists => ?_,
    by decide, fun p tag => rfl, fun dex odex k m => ⟨?_, ?_, ?_, fun r p => ?_⟩⟩
  · cases dirExists <;> simp [alignmentStageActions]
  · cases dirExists <;> simp [alignmentStageActions]
  · rw [runAlignment_mem_prog]
    simp
  · rw [makeAlignDir_mem_prog]
    simp
  · rw [processFasta_mem_prog]
    simp
  · intro hmem
    have := (runAlignment_mem_prog r (some p) dex odex k m).mp hmem
    simp at this

end FastFoldInference
